import Mathlib

/-!
Verification of the interactive fuzzy-selection widget of the `ranobe`
repository (`src/internal/select/select.rs`, `src/internal/select/theme.rs`).

The Rust sources are shallowly embedded: pure fragments become Lean
functions, the interactive loop becomes an explicit step function on a
widget-state record, and the terminal is modelled as a state record
threaded through fallible operations.  Machine integers (`usize`, `i64`,
`u64`) are modelled by `Nat`/`Int`; the values occurring here (list
lengths, cursor offsets) are far below any overflow boundary, which is
noted where a cast appears in the source.
-/

namespace Select

/-- Candidate record, from `src/providers/mod.rs` (`pub struct Ranobe`).
The `url` field is a `surf::Url`; only its identity matters to the widget,
so it is modelled as plain text. -/
structure Ranobe where
  title : String
  url : String
deriving DecidableEq, Repr

/-- Modelled from the spec: the Fuzzy Match Engine.  The widget delegates
scoring to the external crate `fuzzy_matcher::skim::SkimMatcherV2`, whose
source is not part of this repository; spec section 4.1 and the glossary
describe the contract (greedy subsequence matching, no result when the
query is not a subsequence, bonuses for contiguous runs and word
boundaries, penalty for long spans, empty query matches everything with an
identical score).  `subseqPositions text pattern i` returns the positions
(offset by `i`) of the leftmost subsequence embedding of `pattern` into
`text`, or `none` when `pattern` is not a subsequence of `text`. -/
def subseqPositions : List Char → List Char → Nat → Option (List Nat)
  | _, [], _ => some []
  | [], _ :: _, _ => none
  | t :: ts, p :: ps, i =>
      if t = p then (subseqPositions ts ps (i + 1)).map (fun l => i :: l)
      else subseqPositions ts (p :: ps) (i + 1)

/-- Number of adjacent matched-position pairs that are contiguous. -/
def contigPairs : List Nat → Nat
  | a :: b :: rest => (if b = a + 1 then 1 else 0) + contigPairs (b :: rest)
  | _ => 0

/-- Length of the span covered by the matched positions (0 for no positions). -/
def spanOf : List Nat → Nat
  | [] => 0
  | a :: rest => rest.getLastD a + 1 - a

/-- Whether a matched position sits at a word boundary of the text. -/
def isWordBoundary (text : List Char) (p : Nat) : Bool :=
  p = 0 || text.getD (p - 1) 'a' = ' '

/-- Number of matched positions at word boundaries. -/
def boundaryCount (text : List Char) (pos : List Nat) : Nat :=
  (pos.filter (isWordBoundary text)).length

/-- Modelled from the spec: score of a set of matched positions (spec 4.1:
contiguous runs and word boundaries raise the score, a long span lowers it). -/
def scorePositions (text : List Char) (pos : List Nat) : Int :=
  16 * contigPairs pos + 8 * boundaryCount text pos - spanOf pos

/-- Modelled from the spec: `score(query, text)`, the pure fuzzy scoring
function (spec 4.1); stands for `SkimMatcherV2::fuzzy_match(text, pattern)`. -/
def fuzzyMatch (text pattern : List Char) : Option Int :=
  (subseqPositions text pattern 0).map (scorePositions text)

/-- Embeds `select.rs` lines 192-197: the per-frame list of `(item, score)`
pairs, in the original candidate order, dropping candidates with no match. -/
def matchList (items : List Ranobe) (searchTerm : List Char) : List (Ranobe × Int) :=
  items.filterMap (fun item => (fuzzyMatch item.title.data searchTerm).map (fun s => (item, s)))

/-- The list is sorted by descending score: the comparator of `select.rs`
line 200 (`|(_, s1), (_, s2)| s2.cmp(s1)`) reports no adjacent pair out of
order. -/
def SortedDesc (l : List (Ranobe × Int)) : Prop :=
  l.Chain' (fun a b => b.2 ≤ a.2)

/-- Executable check for `SortedDesc`. -/
def sortedDescB : List (Ranobe × Int) → Bool
  | a :: b :: rest => decide (b.2 ≤ a.2) && sortedDescB (b :: rest)
  | _ => true

instance instDecSortedDesc (l : List (Ranobe × Int)) : Decidable (SortedDesc l) :=
  decidable_of_iff (sortedDescB l = true)
    (by
      unfold SortedDesc
      induction l with
      | nil => simp [sortedDescB]
      | cons a rest ih =>
          cases rest with
          | nil => simp [sortedDescB]
          | cons b rest2 =>
              rw [List.chain'_cons, ← ih]
              simp [sortedDescB])

/-- Contract of `Vec::sort_unstable_by` at `select.rs` line 200: the output
is a permutation of the input that is sorted under the comparator.  Rust
documents exactly this and explicitly withholds any stability guarantee,
and the sort implementation lives outside this repository, so the frame's
`filtered_list` is characterised by this relation. -/
def SortUnstableResult (input output : List (Ranobe × Int)) : Prop :=
  input.Perm output ∧ SortedDesc output

/-- Stable tie-breaking: for every score, the entries carrying that score
appear in the output in the same relative order as in the input. -/
def StableTies (input output : List (Ranobe × Int)) : Prop :=
  ∀ s : Int, output.filter (fun e => e.2 == s) = input.filter (fun e => e.2 == s)

/-- Embeds the `next_item!` macro (`select.rs` lines 158-168).  The source
computes `((sel as i64 - 1 + len as i64) % (len as i64)) as usize`; the
`i64` casts are value-preserving for the list lengths arising here
(far below `2^63`), so the arithmetic is carried out in `Int`. -/
def nextItem (sel : Option Nat) (len : Nat) : Option Nat :=
  match sel with
  | none => some (len - 1)
  | some s => some ((((s : Int) - 1 + (len : Int)) % (len : Int)).toNat)

/-- Embeds the `prev_item!` macro (`select.rs` lines 170-177).  The source
computes `(sel as u64 + 1).rem(len as u64) as usize`; `sel + 1` does not
wrap for the lengths arising here, so the arithmetic is carried out in `Nat`. -/
def prevItem (sel : Option Nat) (len : Nat) : Option Nat :=
  match sel with
  | none => some 0
  | some s => some ((s + 1) % len)

/-- Applies a directional move `n` consecutive times against a fixed
filtered-list length, as the claim about repeated key presses requires. -/
def iterMove (move : Option Nat → Nat → Option Nat) (len : Nat) :
    Nat → Option Nat → Option Nat
  | 0, sel => sel
  | n + 1, sel => iterMove move len n (move sel len)

/-- Embeds `enum InputMode` (`select.rs` lines 9-12). -/
inductive InputMode
  | normal
  | editing
deriving DecidableEq, Repr

/-- The decoded key events the interaction loop distinguishes
(`console::Key` constructors matched at `select.rs` lines 219-310). -/
inductive Key
  | escape
  | enter
  | arrowUp
  | arrowDown
  | arrowLeft
  | arrowRight
  | tab
  | backTab
  | backspace
  | char (c : Char)
deriving DecidableEq, Repr

/-- Builder configuration of `FuzzySelect` (`select.rs` lines 14-27 and
322-338) restricted to the fields the interaction loop reads.  `capacity`
is the paging capacity the spec-modelled Paging Manager ends up with
(spec 4.3: explicit caller value adjusted for the page indicator, or
derived from the terminal height); the interaction loop treats it as a
fixed quantity.  `theme` and `prompt` only affect formatted output, not
control flow, so the prompt text is kept and the theme omitted. -/
structure Config where
  items : List Ranobe
  prompt : String
  defaultSel : Option Nat
  report : Bool
  clear : Bool
  highlightMatches : Bool
  capacity : Nat
  initialText : String
deriving DecidableEq, Repr

/-- The mutable widget state of one `_interact_on` loop iteration
(`select.rs` lines 138-146 create it): query buffer with cursor, the
optional selection into the current filtered list, the input mode, and the
Paging Manager's current page.  The query is modelled as a character list
with a character-offset cursor; this coincides with the byte-offset
cursor of the source exactly on single-byte text (the byte-accurate
refinement used for the cursor-safety claim is `EditSt` below). -/
structure WState where
  searchTerm : List Char
  position : Nat
  sel : Option Nat
  mode : InputMode
  page : Nat
deriving DecidableEq, Repr

/-- Ceiling division, `(a + b - 1) / b`. -/
def ceilDiv (a b : Nat) : Nat := (a + b - 1) / b

/-- Modelled from the spec: the Paging Manager's page count
(`src/internal/select/paging.rs` is not present under `src/`; spec 4.3
describes `Paging`).  Number of pages needed for `total` items at
`capacity` per page. -/
def pageCount (total capacity : Nat) : Nat := ceilDiv total capacity

/-- Modelled from the spec: `Paging::update(selected_index)` sets
`current_page = selected_index / capacity` (spec 4.3). -/
def pagingUpdate (capacity selIdx : Nat) : Nat := selIdx / capacity

/-- Modelled from the spec: `Paging::next_page` moves to the next page
cyclically and returns the selection index of the first row of the new
page (spec 4.2 and 4.3).  Result: `(new page, returned selection index)`. -/
def pagingNextPage (page total capacity : Nat) : Nat × Nat :=
  let p2 := (page + 1) % pageCount total capacity
  (p2, p2 * capacity)

/-- Modelled from the spec: `Paging::previous_page` moves to the previous
page cyclically and returns a boundary row of the new page (spec 4.2 and
4.3); the first row of that page is used, the same boundary `next_page`
reports. -/
def pagingPrevPage (page total capacity : Nat) : Nat × Nat :=
  let pc := pageCount total capacity
  let p2 := (page + pc - 1) % pc
  (p2, p2 * capacity)

/-- Modelled from the spec: `Paging.active` is whether the item total
exceeds the page capacity (spec 4.3).  `Paging::new` receives
`self.items.len()` (`select.rs` line 143) and the loop never feeds the
filtered count back, so the total stays the full candidate count. -/
def pagingActive (cfg : Config) : Bool := cfg.capacity < cfg.items.length

/-- Length of the current frame's `filtered_list`.  The sort at line 200
permutes the list, so its length equals the length of `matchList`, which
is what the emptiness guards of the key arms observe. -/
def filteredLen (cfg : Config) (s : WState) : Nat :=
  (matchList cfg.items s.searchTerm).length

/-- Embeds `chr.is_ascii_control()` (guard at `select.rs` line 301):
true exactly for the ASCII control characters. -/
def isAsciiControl (c : Char) : Bool := c.toNat < 0x20 || c.toNat == 0x7f

/-- Outcome of one execution of the key `match` (`select.rs` lines
219-310): continue the loop in a new state, exit cancelled (`Ok(None)`),
or commit the filtered-list position held by the selection. -/
inductive StepOut
  | cont (s : WState)
  | cancel
  | commit (p : Nat)
deriving DecidableEq, Repr

/-- Embeds the key `match` of `_interact_on` (`select.rs` lines 219-310),
arm for arm, in source order; a Rust arm whose guard fails falls through
to the later arms, which the nested conditionals reproduce (for example
`Key::Char('k')` in editing mode falls through to the character-insertion
arm).  Terminal effects (`flush`, rendering) are carried by `runKeys`
below; this is the pure state transition. -/
def stepMatch (cfg : Config) (s : WState) (k : Key) : StepOut :=
  let len := filteredLen cfg s
  match k with
  | .escape =>
      match s.mode with
      | .normal => .cancel
      | .editing => .cont { s with mode := .normal }
  | .arrowUp =>
      if len ≠ 0 then .cont { s with sel := nextItem s.sel len } else .cont s
  | .backTab =>
      if len ≠ 0 then .cont { s with sel := nextItem s.sel len } else .cont s
  | .arrowDown =>
      if len ≠ 0 then .cont { s with sel := prevItem s.sel len } else .cont s
  | .tab =>
      if len ≠ 0 then .cont { s with sel := prevItem s.sel len } else .cont s
  | .arrowLeft =>
      if pagingActive cfg then
        let pr := pagingPrevPage s.page cfg.items.length cfg.capacity
        .cont { s with page := pr.1, sel := some pr.2 }
      else .cont s
  | .arrowRight =>
      if pagingActive cfg then
        let pr := pagingNextPage s.page cfg.items.length cfg.capacity
        .cont { s with page := pr.1, sel := some pr.2 }
      else .cont s
  | .enter =>
      match s.sel with
      | some p =>
          match s.mode with
          | .editing => .cont { s with mode := .normal }
          | .normal => if len ≠ 0 then .commit p else .cont s
      | none => .cont s
  | .backspace =>
      if s.mode = .editing ∧ s.position > 0 then
        .cont { s with
          position := s.position - 1
          searchTerm := s.searchTerm.eraseIdx (s.position - 1) }
      else .cont s
  | .char c =>
      if c = 'i' ∧ s.mode = .normal then
        .cont { s with mode := .editing }
      else if c = 'k' ∧ s.mode = .normal ∧ len ≠ 0 then
        .cont { s with sel := nextItem s.sel len }
      else if c = 'j' ∧ s.mode = .normal ∧ len ≠ 0 then
        .cont { s with sel := prevItem s.sel len }
      else if c = 'h' ∧ s.mode = .normal ∧ pagingActive cfg then
        let pr := pagingPrevPage s.page cfg.items.length cfg.capacity
        .cont { s with page := pr.1, sel := some pr.2 }
      else if c = 'l' ∧ s.mode = .normal ∧ pagingActive cfg then
        let pr := pagingNextPage s.page cfg.items.length cfg.capacity
        .cont { s with page := pr.1, sel := some pr.2 }
      else if s.mode = .editing ∧ ¬ isAsciiControl c then
        .cont { s with
          searchTerm := s.searchTerm.insertIdx s.position c
          position := s.position + 1
          sel := some 0 }
      else .cont s

/-- Embeds the loop tail (`select.rs` lines 312-315): every iteration that
does not return re-runs `paging.update` with the selection (absent
selection treated as index 0). -/
def applyUpdate (cfg : Config) (s : WState) : WState :=
  { s with page := pagingUpdate cfg.capacity (s.sel.getD 0) }

/-- One full loop iteration's state change for a key: the key `match`
followed by the paging update of the loop tail. -/
def stepKey (cfg : Config) (s : WState) (k : Key) : StepOut :=
  match stepMatch cfg s k with
  | .cont s2 => .cont (applyUpdate cfg s2)
  | out => out

/-- Embeds the loop-entry state (`select.rs` lines 138-146): cursor at the
end of the initial text, query buffer a copy of the initial text, fresh
paging, selection taken unvalidated from the builder `default`.  The
source sets `position = self.initial_text.len()` (a byte length); on
single-byte text it equals the character count used here. -/
def initState (cfg : Config) : WState :=
  { searchTerm := cfg.initialText.data
    position := cfg.initialText.data.length
    sel := cfg.defaultSel
    mode := .normal
    page := 0 }

/-- The widget states observed at the top of each loop iteration (where
the frame is rendered and `read_key` blocks), for a given key sequence:
the trace stops after a key that exits the loop. -/
def traceStates (cfg : Config) : WState → List Key → List WState
  | s, [] => [s]
  | s, k :: ks =>
      s ::
        (match stepKey cfg s k with
          | .cont s2 => traceStates cfg s2 ks
          | _ => [])

/-- The selection invariant asserted by the spec: `Some i` only with `i`
inside the current filtered list, and `None` whenever that list is empty. -/
def SelInv (cfg : Config) (s : WState) : Prop :=
  (∀ i, s.sel = some i → i < filteredLen cfg s) ∧
    (filteredLen cfg s = 0 → s.sel = none)

/-- Embeds the commit lookup (`select.rs` lines 284-286):
`self.items.iter().position(|item| item.title.eq(sel_string))`, the index
of the first item whose title equals the selected title. -/
def commitIndex (items : List Ranobe) (selTitle : String) : Option Nat :=
  match items with
  | [] => none
  | item :: rest =>
      if item.title = selTitle then some 0
      else (commitIndex rest selTitle).map (fun i => i + 1)

/-! ### Terminal model

`_interact_on` threads every terminal operation through `io::Result` and
the `?` operator.  The terminal is modelled by the one piece of state the
cursor-visibility claim observes (whether the cursor is hidden) plus an
operation counter; an oracle decides, per operation, whether the
underlying I/O succeeds.  Each `?` site of the source is one operation. -/

/-- Cursor-visibility state of the terminal plus a count of the terminal
operations attempted so far. -/
structure TermSt where
  hidden : Bool
  clock : Nat
deriving DecidableEq, Repr

/-- Result of `_interact_on`: `Ok(Some _)/Ok(None)` or a propagated I/O
error. -/
inductive RunExit
  | ok (v : Option Nat)
  | ioErr
deriving DecidableEq, Repr

/-- One fallible terminal operation: if the oracle grants the current
tick, the operation's effect on cursor visibility is applied; otherwise
the error propagates (the effect does not happen). -/
def opRun (oracle : Nat → Bool) (t : TermSt) (eff : Bool → Bool) : Except TermSt TermSt :=
  if oracle t.clock then .ok { hidden := eff t.hidden, clock := t.clock + 1 }
  else .error { t with clock := t.clock + 1 }

/-- The four fallible operations at the top of each loop iteration, in
source order: `render.clear()?` (line 180), the prompt render inside
`paging.render_prompt` (lines 182-189), the rendering of the visible items
(lines 202-215, collapsed into one operation since only success or failure
matters here), and `term.flush()?` (line 217).  None of them touches
cursor visibility. -/
def iterOps (oracle : Nat → Bool) (t : TermSt) : Except TermSt TermSt :=
  opRun oracle t id >>= fun t1 =>
  opRun oracle t1 id >>= fun t2 =>
  opRun oracle t2 id >>= fun t3 =>
  opRun oracle t3 id

/-- Operations of the cancel exit (`select.rs` lines 222-228), in source
order: `render.clear()?` and `term.flush()?` when the clear flag is set,
then `term.show_cursor()?`. -/
def cancelOps (oracle : Nat → Bool) (clear : Bool) (t2 : TermSt) : Except TermSt TermSt :=
  (if clear then opRun oracle t2 id >>= fun u => opRun oracle u id else .ok t2) >>= fun u =>
    opRun oracle u (fun _ => false)

/-- Operations of the commit exit (`select.rs` lines 272-288), in source
order: `render.clear()?` when clearing,
`render.input_prompt_selection(..)?` when reporting, then
`term.show_cursor()?`. -/
def commitOps (oracle : Nat → Bool) (clear report : Bool) (t2 : TermSt) :
    Except TermSt TermSt :=
  ((if clear then opRun oracle t2 id else .ok t2) >>= fun u =>
      if report then opRun oracle u id else .ok u) >>= fun u =>
    opRun oracle u (fun _ => false)

/-- Operations of a continuing iteration's tail (`select.rs` lines
312-317): `paging.update(..)?` then `render.clear_preserve_prompt(..)?`. -/
def contOps (oracle : Nat → Bool) (t2 : TermSt) : Except TermSt TermSt :=
  opRun oracle t2 id >>= fun u => opRun oracle u id

/-- Embeds the loop of `_interact_on` (`select.rs` lines 179-318) over a
finite key sequence, threading the terminal state.  Each iteration renders
(`iterOps`), reads a key (`term.read_key()?`; an exhausted key list is a
failing read), applies the key `match`, performs the exit arm's
operations (`cancelOps`/`commitOps`) and returns, or performs the loop
tail (`contOps`) and recurses.  The commit exit returns the
original-index lookup of lines 284-289; `arrange` stands for the order
`sort_unstable_by` produced for the frame's filtered list (only the
committed title depends on it; the source indexes `filtered_list[sel]`,
which panics out of range — the out-of-range case is unreachable in the
properties proved here). -/
def runKeys (oracle : Nat → Bool) (cfg : Config)
    (arrange : List (Ranobe × Int) → List (Ranobe × Int)) :
    List Key → WState → TermSt → RunExit × TermSt
  | [], _, t =>
      match iterOps oracle t with
      | .error t2 => (.ioErr, t2)
      | .ok t2 => (.ioErr, { t2 with clock := t2.clock + 1 })
  | k :: ks, s, t =>
      match iterOps oracle t >>= fun t1 => opRun oracle t1 id with
      | .error t2 => (.ioErr, t2)
      | .ok t2 =>
          match stepMatch cfg s k with
          | .cancel =>
              match cancelOps oracle cfg.clear t2 with
              | .error t3 => (.ioErr, t3)
              | .ok t3 => (.ok none, t3)
          | .commit p =>
              match commitOps oracle cfg.clear cfg.report t2 with
              | .error t3 => (.ioErr, t3)
              | .ok t3 =>
                  (.ok (commitIndex cfg.items
                    (((arrange (matchList cfg.items s.searchTerm)).getD p
                      ⟨⟨"", ""⟩, 0⟩).1.title)), t3)
          | .cont s2 =>
              match contOps oracle t2 with
              | .error t3 => (.ioErr, t3)
              | .ok t3 => runKeys oracle cfg arrange ks (applyUpdate cfg s2) t3

/-- Embeds `_interact_on` from its entry: the cursor starts visible, the
fallible `term.hide_cursor()?` (line 156) hides it, then the loop runs. -/
def interactOn (oracle : Nat → Bool) (cfg : Config)
    (arrange : List (Ranobe × Int) → List (Ranobe × Int)) (keys : List Key) :
    RunExit × TermSt :=
  let t0 : TermSt := { hidden := false, clock := 0 }
  match opRun oracle t0 (fun _ => true) with
  | .error t1 => (.ioErr, t1)
  | .ok t1 => runKeys oracle cfg arrange keys (initState cfg) t1

/-! ### Byte-accurate editing model

The Editing-mode arms mutate a Rust `String` at a byte offset
(`search_term.insert(position, chr)`, `search_term.remove(position)`), and
the theme slices `search_term[0..cursor_pos]`; each of these panics off a
character boundary.  The model below keeps the text as a character list
but addresses it in UTF-8 bytes, returning `none` exactly where the Rust
operation would panic. -/

/-- UTF-8 encoded width of a character, in bytes. -/
def charBytes (c : Char) : Nat :=
  if c.toNat < 0x80 then 1
  else if c.toNat < 0x800 then 2
  else if c.toNat < 0x10000 then 3
  else 4

/-- UTF-8 byte length of a text, `str::len()` of the source. -/
def byteLen (l : List Char) : Nat := (l.map charBytes).sum

/-- `String::insert(pos, c)` at a byte offset: `none` (a Rust panic) when
`pos` is past the end or inside a character. -/
def insertAtByte : List Char → Nat → Char → Option (List Char)
  | l, 0, c => some (c :: l)
  | [], _ + 1, _ => none
  | x :: xs, pos, c =>
      if pos < charBytes x then none
      else (insertAtByte xs (pos - charBytes x) c).map (fun r => x :: r)

/-- `String::remove(pos)` at a byte offset: removes the character starting
at `pos`; `none` (a Rust panic) when `pos` is not the start of a character. -/
def removeAtByte : List Char → Nat → Option (List Char)
  | [], _ => none
  | _ :: xs, 0 => some xs
  | x :: xs, pos =>
      if pos < charBytes x then none
      else (removeAtByte xs (pos - charBytes x)).map (fun r => x :: r)

/-- `str::is_char_boundary(pos)`, the condition under which the theme's
slice `search_term[0..cursor_pos]` (`theme.rs` line 88) does not panic. -/
def isCharBoundary : List Char → Nat → Bool
  | _, 0 => true
  | [], _ + 1 => false
  | x :: xs, pos =>
      if pos < charBytes x then false
      else isCharBoundary xs (pos - charBytes x)

/-- The editing-relevant slice of the widget state: the query buffer and
the byte cursor (`select.rs` lines 140-141). -/
structure EditSt where
  searchTerm : List Char
  position : Nat
deriving DecidableEq, Repr

/-- The two Editing-mode keys the cursor-safety claim ranges over. -/
inductive EditKey
  | backspace
  | char (c : Char)
deriving DecidableEq, Repr

/-- Embeds the Editing-mode text arms of the key `match` byte-accurately
(`select.rs` lines 293-307): Backspace with a positive cursor decrements
the cursor and removes the character there; a non-control character is
inserted at the cursor, after which the cursor advances by exactly one
byte (the source's `position += 1`, whatever the width of the inserted
character); a guarded-out key is a no-op.  `none` is a Rust panic. -/
def editStep (s : EditSt) (k : EditKey) : Option EditSt :=
  match k with
  | .backspace =>
      if s.position > 0 then
        (removeAtByte s.searchTerm (s.position - 1)).map
          (fun l => ⟨l, s.position - 1⟩)
      else some s
  | .char c =>
      if ¬ isAsciiControl c then
        (insertAtByte s.searchTerm s.position c).map
          (fun l => ⟨l, s.position + 1⟩)
      else some s

/-- The states visited while feeding an Editing-mode key sequence, or
`none` as soon as one operation panics. -/
def editTrace (s : EditSt) : List EditKey → Option (List EditSt)
  | [] => some [s]
  | k :: ks => (editStep s k).bind fun s2 => (editTrace s2 ks).map (fun l => s :: l)

/-- The cursor-safety property of an Editing-mode run: no operation
panics, and at every visited state the cursor is within the buffer's byte
length and on a character boundary. -/
def editTraceOk (s : EditSt) (keys : List EditKey) : Bool :=
  match editTrace s keys with
  | none => false
  | some tr =>
      tr.all (fun u =>
        decide (u.position ≤ byteLen u.searchTerm) && isCharBoundary u.searchTerm u.position)

/-! ### Frame-erase geometry -/

/-- Embeds `size_vec` (`select.rs` lines 147-151): the byte length of every
candidate's title, over the whole collection. -/
def sizeVec (items : List Ranobe) : List Nat :=
  items.map (fun item => item.title.utf8ByteSize)

/-- Embeds `TermThemeRenderer::clear_preserve_prompt` (`theme.rs` lines
473-487): starting from the renderer's line count `height`, every entry of
`size_vec` longer than the terminal width adds
`ceil((size + 2) / width) - 1` further rows, and that many rows are
erased.  The source computes the ceiling in `f64`; for any realistic size
and a positive width the floating-point ceiling is exact and equals
`ceilDiv (size + 2) width`. -/
def clearPreserveHeight (height : Nat) (sizes : List Nat) (width : Nat) : Nat :=
  height + (sizes.map (fun size => if width < size then ceilDiv (size + 2) width - 1 else 0)).sum

/-- The erase height the claim describes: each visible-page item wider than
the terminal contributes `ceil((size + 2) / width)` rows, every other
visible item one row, summed over the visible page only. -/
def claimedEraseHeight (visibleSizes : List Nat) (width : Nat) : Nat :=
  (visibleSizes.map (fun size => if width < size then ceilDiv (size + 2) width else 1)).sum

/-- The keys that navigate the selection or switch modes without editing
the query or jumping pages: these are the keys under which the selection
invariant is actually preserved. -/
def SafeNavKey (k : Key) : Prop :=
  k = .arrowUp ∨ k = .arrowDown ∨ k = .tab ∨ k = .backTab ∨ k = .escape ∨ k = .enter

instance (k : Key) : Decidable (SafeNavKey k) :=
  decidable_of_iff
    (k = .arrowUp ∨ k = .arrowDown ∨ k = .tab ∨ k = .backTab ∨ k = .escape ∨ k = .enter)
    Iff.rfl

/-- Printable single-byte keys: Backspace, or a character in the printable
ASCII range (the range the cursor-safety claim quantifies over). -/
def printableAsciiKey : EditKey → Bool
  | .backspace => true
  | .char c => decide (0x20 ≤ c.toNat) && decide (c.toNat < 0x7f)

/-- The inductive invariant of the byte-accurate editing machine: every
buffered character is a single UTF-8 byte and the cursor is inside the
buffer. -/
def EInv (s : EditSt) : Prop :=
  (∀ c ∈ s.searchTerm, charBytes c = 1) ∧ s.position ≤ s.searchTerm.length

instance (input output : List (Ranobe × Int)) :
    Decidable (SortUnstableResult input output) :=
  decidable_of_iff (input.Perm output ∧ SortedDesc output) Iff.rfl

/-- Executable check for the selection invariant `SelInv`. -/
def selInvB (cfg : Config) (s : WState) : Bool :=
  (match s.sel with
    | none => true
    | some i => decide (i < filteredLen cfg s)) &&
  (!(decide (filteredLen cfg s = 0)) || decide (s.sel = none))

instance instDecSelInv (cfg : Config) (s : WState) : Decidable (SelInv cfg s) :=
  decidable_of_iff (selInvB cfg s = true)
    (by
      unfold selInvB SelInv
      cases hsel : s.sel <;>
        simp [hsel, Bool.and_eq_true, Bool.or_eq_true, decide_eq_true_eq])

instance (s : EditSt) : Decidable (EInv s) :=
  decidable_of_iff
    ((∀ c ∈ s.searchTerm, charBytes c = 1) ∧ s.position ≤ s.searchTerm.length)
    Iff.rfl

/-! ## Helper lemmas -/

/-- The `i64` arithmetic of `next_item!` on a present selection equals the
natural-number cyclic decrement. -/
theorem nextItem_some (j len : Nat) (hlen : 0 < len) :
    nextItem (some j) len = some ((j + len - 1) % len) := by
  simp only [nextItem]
  congr 1
  have h1 : ((j : Int) - 1 + (len : Int)) = ((j + len - 1 : Nat) : Int) := by
    omega
  rw [h1]
  norm_cast

/-- Iterating `prev_item!` from a present selection adds the iteration
count, modulo the length. -/
theorem iterMove_prev_formula (len : Nat) (hlen : 0 < len) :
    ∀ (n j : Nat), j < len → iterMove prevItem len n (some j) = some ((j + n) % len) := by
  intro n
  induction n with
  | zero =>
      intro j hj
      simp [iterMove, Nat.mod_eq_of_lt hj]
  | succ n ih =>
      intro j hj
      simp only [iterMove, prevItem]
      rw [ih ((j + 1) % len) (Nat.mod_lt _ hlen)]
      congr 1
      rw [Nat.mod_add_mod]
      congr 1
      omega

/-- Iterating `next_item!` from a present selection subtracts the
iteration count (as adding `len - 1`), modulo the length. -/
theorem iterMove_next_formula (len : Nat) (hlen : 0 < len) :
    ∀ (n j : Nat), j < len →
      iterMove nextItem len n (some j) = some ((j + n * (len - 1)) % len) := by
  intro n
  induction n with
  | zero =>
      intro j hj
      simp [iterMove, Nat.mod_eq_of_lt hj]
  | succ n ih =>
      intro j hj
      simp only [iterMove]
      rw [nextItem_some j len hlen]
      rw [ih ((j + len - 1) % len) (Nat.mod_lt _ hlen)]
      congr 1
      rw [Nat.mod_add_mod]
      congr 1
      rw [Nat.succ_mul]
      omega

/-- The key `match` produces the cancel exit only for Escape in Normal
mode: no other arm of `select.rs` lines 219-310 returns `Ok(None)`. -/
theorem stepMatch_cancel_only (cfg : Config) (s0 : WState) (k : Key)
    (hk : stepMatch cfg s0 k = .cancel) : k = .escape ∧ s0.mode = .normal := by
  cases k with
  | escape =>
      refine ⟨rfl, ?_⟩
      cases hm : s0.mode
      · rfl
      · simp only [stepMatch, hm] at hk
        exact absurd hk (by simp)
  | enter =>
      simp only [stepMatch] at hk
      cases hs : s0.sel <;> rw [hs] at hk
      · exact absurd hk (by simp)
      · cases hm : s0.mode <;> rw [hm] at hk
        · by_cases hlen : filteredLen cfg s0 = 0 <;> simp [hlen] at hk
        · simp at hk
  | char c =>
      simp only [stepMatch] at hk
      split_ifs at hk
  | arrowUp =>
      simp only [stepMatch] at hk
      split_ifs at hk
  | arrowDown =>
      simp only [stepMatch] at hk
      split_ifs at hk
  | arrowLeft =>
      simp only [stepMatch] at hk
      split_ifs at hk
  | arrowRight =>
      simp only [stepMatch] at hk
      split_ifs at hk
  | tab =>
      simp only [stepMatch] at hk
      split_ifs at hk
  | backTab =>
      simp only [stepMatch] at hk
      split_ifs at hk
  | backspace =>
      simp only [stepMatch] at hk
      split_ifs at hk

/-- A full loop iteration cancels exactly when the key `match` cancels
(the trailing paging update only runs on continuing iterations). -/
theorem stepKey_cancel_iff (cfg : Config) (s0 : WState) (k : Key) :
    stepKey cfg s0 k = .cancel ↔ stepMatch cfg s0 k = .cancel := by
  unfold stepKey
  cases h : stepMatch cfg s0 k <;> simp

/-- `next_item!` always yields an in-range index when the filtered list is
non-empty. -/
theorem nextItem_lt (sel : Option Nat) (len : Nat) (hlen : len ≠ 0) :
    ∀ v, nextItem sel len = some v → v < len := by
  intro v hv
  cases sel with
  | none =>
      simp only [nextItem, Option.some.injEq] at hv
      omega
  | some j =>
      simp only [nextItem, Option.some.injEq] at hv
      have h1 : ((j : Int) - 1 + (len : Int)) % (len : Int) < (len : Int) :=
        Int.emod_lt_of_pos _ (by omega)
      have h2 : 0 ≤ ((j : Int) - 1 + (len : Int)) % (len : Int) :=
        Int.emod_nonneg _ (by omega)
      omega

/-- `prev_item!` always yields an in-range index when the filtered list is
non-empty. -/
theorem prevItem_lt (sel : Option Nat) (len : Nat) (hlen : len ≠ 0) :
    ∀ v, prevItem sel len = some v → v < len := by
  intro v hv
  cases sel with
  | none =>
      simp only [prevItem, Option.some.injEq] at hv
      omega
  | some j =>
      simp only [prevItem, Option.some.injEq] at hv
      subst hv
      exact Nat.mod_lt _ (by omega)

/-- The greedy matcher accepts the empty pattern against any text, with
positions `[]` and score 0 — the uniform empty-query score. -/
theorem fuzzyMatch_nil (t : List Char) : fuzzyMatch t [] = some 0 := by
  have h1 : subseqPositions t [] 0 = some [] := by cases t <;> rfl
  simp [fuzzyMatch, h1, scorePositions, contigPairs, boundaryCount, spanOf]

/-- With an empty query, the per-frame match list is the candidate list
itself, each entry carrying score 0. -/
theorem matchList_nil (items : List Ranobe) :
    matchList items [] = items.map (fun it => (it, (0 : Int))) := by
  unfold matchList
  have hfun : (fun item : Ranobe => (fuzzyMatch item.title.data []).map (fun s => (item, s))) =
      fun item => some (item, (0 : Int)) := by
    funext item
    rw [fuzzyMatch_nil]
    rfl
  rw [hfun]
  exact congrFun (List.filterMap_eq_map fun it => (it, (0 : Int))) items

/-- Every entry of the match list is built from a member of the candidate
collection. -/
theorem matchList_fst_mem (items : List Ranobe) (st : List Char) (e : Ranobe × Int)
    (he : e ∈ matchList items st) : e.1 ∈ items := by
  unfold matchList at he
  rcases List.mem_filterMap.mp he with ⟨a, ha, hfa⟩
  rcases Option.map_eq_some'.mp hfa with ⟨sc, _, hrfl⟩
  rw [← hrfl]
  exact ha

/-- `Iterator::position` semantics of the commit lookup: given a witness
member with the wanted title, the lookup returns an index holding an item
with that title. -/
theorem commitIndex_found (items : List Ranobe) (x : Ranobe) (hx : x ∈ items) :
    ∃ i itm, commitIndex items x.title = some i ∧ items.get? i = some itm ∧
      itm.title = x.title := by
  induction items with
  | nil => cases hx
  | cons a rest ih =>
      by_cases h : a.title = x.title
      · exact ⟨0, a, by simp [commitIndex, h], rfl, h⟩
      · have hx2 : x ∈ rest := by
          cases hx with
          | head => exact absurd rfl h
          | tail _ hx2 => exact hx2
        obtain ⟨i, itm, h1, h2, h3⟩ := ih hx2
        exact ⟨i + 1, itm, by simp [commitIndex, h, h1], by simpa using h2, h3⟩

/-- With pairwise-distinct titles, two positions holding the same title
coincide. -/
theorem commitIndex_unique (items : List Ranobe)
    (huniq : items.Pairwise (fun a b => a.title ≠ b.title))
    (i j : Nat) (itm jtm : Ranobe) (hi : items.get? i = some itm)
    (hj : items.get? j = some jtm) (ht : itm.title = jtm.title) : i = j := by
  rcases List.get?_eq_some.mp hi with ⟨hi2, hgi⟩
  rcases List.get?_eq_some.mp hj with ⟨hj2, hgj⟩
  by_contra hne
  rcases Nat.lt_or_ge i j with hlt | hge
  · have h4 := List.pairwise_iff_get.mp huniq ⟨i, hi2⟩ ⟨j, hj2⟩ hlt
    rw [hgi, hgj] at h4
    exact h4 ht
  · have hlt2 : j < i := by omega
    have h4 := List.pairwise_iff_get.mp huniq ⟨j, hj2⟩ ⟨i, hi2⟩ hlt2
    rw [hgi, hgj] at h4
    exact h4 ht.symm

/-- The selection invariant is preserved by one loop iteration under the
item-navigation and mode keys (Up/Down, Tab/BackTab, Escape, Enter): these
keys never change the query, and the cyclic moves land inside the
filtered list. -/
theorem stepKey_safe_preserves (cfg : Config) (s s2 : WState) (k : Key)
    (hinv : SelInv cfg s) (hk : SafeNavKey k)
    (hstep : stepKey cfg s k = .cont s2) : SelInv cfg s2 := by
  rcases hk with h | h | h | h | h | h <;> subst h
  · by_cases hlen : filteredLen cfg s ≠ 0
    · have h2 : stepKey cfg s .arrowUp =
          .cont (applyUpdate cfg { s with sel := nextItem s.sel (filteredLen cfg s) }) := by
        simp [stepKey, stepMatch, hlen]
      rw [h2] at hstep
      have h3 : applyUpdate cfg { s with sel := nextItem s.sel (filteredLen cfg s) } = s2 := by
        injection hstep
      subst h3
      refine ⟨?_, ?_⟩
      · intro i hi
        exact nextItem_lt s.sel (filteredLen cfg s) hlen i hi
      · intro h0
        exact absurd h0 hlen
    · have h2 : stepKey cfg s .arrowUp = .cont (applyUpdate cfg s) := by
        simp [stepKey, stepMatch, hlen]
      rw [h2] at hstep
      have h3 : applyUpdate cfg s = s2 := by injection hstep
      subst h3
      exact hinv
  · by_cases hlen : filteredLen cfg s ≠ 0
    · have h2 : stepKey cfg s .arrowDown =
          .cont (applyUpdate cfg { s with sel := prevItem s.sel (filteredLen cfg s) }) := by
        simp [stepKey, stepMatch, hlen]
      rw [h2] at hstep
      have h3 : applyUpdate cfg { s with sel := prevItem s.sel (filteredLen cfg s) } = s2 := by
        injection hstep
      subst h3
      refine ⟨?_, ?_⟩
      · intro i hi
        exact prevItem_lt s.sel (filteredLen cfg s) hlen i hi
      · intro h0
        exact absurd h0 hlen
    · have h2 : stepKey cfg s .arrowDown = .cont (applyUpdate cfg s) := by
        simp [stepKey, stepMatch, hlen]
      rw [h2] at hstep
      have h3 : applyUpdate cfg s = s2 := by injection hstep
      subst h3
      exact hinv
  · by_cases hlen : filteredLen cfg s ≠ 0
    · have h2 : stepKey cfg s .tab =
          .cont (applyUpdate cfg { s with sel := prevItem s.sel (filteredLen cfg s) }) := by
        simp [stepKey, stepMatch, hlen]
      rw [h2] at hstep
      have h3 : applyUpdate cfg { s with sel := prevItem s.sel (filteredLen cfg s) } = s2 := by
        injection hstep
      subst h3
      refine ⟨?_, ?_⟩
      · intro i hi
        exact prevItem_lt s.sel (filteredLen cfg s) hlen i hi
      · intro h0
        exact absurd h0 hlen
    · have h2 : stepKey cfg s .tab = .cont (applyUpdate cfg s) := by
        simp [stepKey, stepMatch, hlen]
      rw [h2] at hstep
      have h3 : applyUpdate cfg s = s2 := by injection hstep
      subst h3
      exact hinv
  · by_cases hlen : filteredLen cfg s ≠ 0
    · have h2 : stepKey cfg s .backTab =
          .cont (applyUpdate cfg { s with sel := nextItem s.sel (filteredLen cfg s) }) := by
        simp [stepKey, stepMatch, hlen]
      rw [h2] at hstep
      have h3 : applyUpdate cfg { s with sel := nextItem s.sel (filteredLen cfg s) } = s2 := by
        injection hstep
      subst h3
      refine ⟨?_, ?_⟩
      · intro i hi
        exact nextItem_lt s.sel (filteredLen cfg s) hlen i hi
      · intro h0
        exact absurd h0 hlen
    · have h2 : stepKey cfg s .backTab = .cont (applyUpdate cfg s) := by
        simp [stepKey, stepMatch, hlen]
      rw [h2] at hstep
      have h3 : applyUpdate cfg s = s2 := by injection hstep
      subst h3
      exact hinv
  · cases hm : s.mode with
    | normal => simp [stepKey, stepMatch, hm] at hstep
    | editing =>
        have h2 : stepKey cfg s .escape = .cont (applyUpdate cfg { s with mode := .normal }) := by
          simp [stepKey, stepMatch, hm]
        rw [h2] at hstep
        have h3 : applyUpdate cfg { s with mode := .normal } = s2 := by injection hstep
        subst h3
        exact hinv
  · cases hs : s.sel with
    | none =>
        have h2 : stepKey cfg s .enter = .cont (applyUpdate cfg s) := by
          simp [stepKey, stepMatch, hs]
        rw [h2] at hstep
        have h3 : applyUpdate cfg s = s2 := by injection hstep
        subst h3
        exact hinv
    | some p =>
        cases hm : s.mode with
        | editing =>
            have h2 : stepKey cfg s .enter =
                .cont (applyUpdate cfg { s with mode := .normal }) := by
              simp [stepKey, stepMatch, hs, hm]
            rw [h2] at hstep
            have h3 : applyUpdate cfg { s with mode := .normal } = s2 := by injection hstep
            subst h3
            exact hinv
        | normal =>
            by_cases hlen : filteredLen cfg s ≠ 0
            · simp [stepKey, stepMatch, hs, hm, hlen] at hstep
            · have h2 : stepKey cfg s .enter = .cont (applyUpdate cfg s) := by
                simp [stepKey, stepMatch, hs, hm, hlen]
              rw [h2] at hstep
              have h3 : applyUpdate cfg s = s2 := by injection hstep
              subst h3
              exact hinv

/-- The selection invariant, once true, holds at every loop-top state of a
run driven by item-navigation and mode keys. -/
theorem traceStates_inv (cfg : Config) :
    ∀ (keys : List Key) (s : WState), SelInv cfg s →
      (∀ k ∈ keys, SafeNavKey k) → ∀ u ∈ traceStates cfg s keys, SelInv cfg u := by
  intro keys
  induction keys with
  | nil =>
      intro s hs _ u hu
      simp only [traceStates, List.mem_singleton] at hu
      subst hu
      exact hs
  | cons k ks ih =>
      intro s hs hsafe u hu
      simp only [traceStates] at hu
      rcases List.mem_cons.mp hu with rfl | hu2
      · exact hs
      · cases hstep : stepKey cfg s k with
        | cont s3 =>
            rw [hstep] at hu2
            exact ih s3 (stepKey_safe_preserves cfg s s3 k hs (hsafe k (List.mem_cons_self k ks)) hstep)
              (fun k2 hk2 => hsafe k2 (List.mem_cons_of_mem _ hk2)) u hu2
        | cancel =>
            rw [hstep] at hu2
            simp at hu2
        | commit p =>
            rw [hstep] at hu2
            simp at hu2

/-! ## Claim C1 -/

/-- Claim C1 counterexample: the builder `default` is taken unvalidated
into the loop state (`select.rs` line 145), so with `default(5)` and a
single candidate the very first loop iteration — before any key — holds
`Some 5` against a FilteredList of length 1, violating the claimed
invariant. -/
theorem claim1_counterexample :
    initState ⟨[⟨"a", "u"⟩], "", some 5, true, true, true, 5, ""⟩ ∈
        traceStates ⟨[⟨"a", "u"⟩], "", some 5, true, true, true, 5, ""⟩
          (initState ⟨[⟨"a", "u"⟩], "", some 5, true, true, true, 5, ""⟩) [] ∧
      ¬ SelInv ⟨[⟨"a", "u"⟩], "", some 5, true, true, true, 5, ""⟩
        (initState ⟨[⟨"a", "u"⟩], "", some 5, true, true, true, 5, ""⟩) := by
  decide

/-- Claim C1 (amended): provided the initial loop state satisfies the
selection invariant (in particular the builder default, which the code
does not validate, is in range or unset), the invariant — selection `None`
or `Some i` with `i` inside the current FilteredList, and `None` whenever
that list is empty — holds at every loop iteration of every key sequence
made of the item-navigation and mode keys (Up/Down, Tab/BackTab, Escape,
Enter).  It is not an invariant of the full key set: the unvalidated
default, a character insertion (which forces `Some 0` even when the new
FilteredList is empty, `select.rs` line 306) and the page-jump keys can
all break it. -/
theorem claim1_thm (cfg : Config) (keys : List Key)
    (h0 : SelInv cfg (initState cfg)) (hk : ∀ k ∈ keys, SafeNavKey k) :
    ∀ s ∈ traceStates cfg (initState cfg) keys, SelInv cfg s :=
  traceStates_inv cfg keys (initState cfg) h0 hk

/-- Claim C1 witness: the amended theorem applied to a one-candidate
configuration without default and the key sequence `[ArrowUp]`, at the
state reached after the keypress (selection snapped to `Some 0`). -/
theorem claim1_witness :
    SelInv ⟨[⟨"a", "u"⟩], "", none, true, true, true, 5, ""⟩ ⟨[], 0, some 0, .normal, 0⟩ :=
  claim1_thm ⟨[⟨"a", "u"⟩], "", none, true, true, true, 5, ""⟩ [.arrowUp]
    (by decide) (by decide) ⟨[], 0, some 0, .normal, 0⟩ (by decide)

/-! ## Claim C2 -/

/-- Claim C2 counterexample: `sort_unstable_by` guarantees a sorted
permutation and nothing about ties (its implementation lives outside this
repository); for two candidates that tie at score 0 under the empty
query, the reversed order is a conforming frame result that violates
stable tie-breaking. -/
theorem claim2_counterexample :
    SortUnstableResult (matchList [⟨"a", "u1"⟩, ⟨"b", "u2"⟩] [])
        [(⟨"b", "u2"⟩, 0), (⟨"a", "u1"⟩, 0)] ∧
      ¬ StableTies (matchList [⟨"a", "u1"⟩, ⟨"b", "u2"⟩] [])
        [(⟨"b", "u2"⟩, 0), (⟨"a", "u1"⟩, 0)] := by
  refine ⟨by decide, fun h => ?_⟩
  have h0 := h 0
  revert h0
  decide

/-- Claim C2 (amended): every frame's FilteredList — any list the
`sort_unstable_by` contract admits for the computed match list — is
ordered by descending fuzzy-match score (position-wise, not just for
adjacent entries) and contains exactly the fuzzy-matching candidates (the
same entries as the match list); stable tie-breaking, however, is not
guaranteed. -/
theorem claim2_thm (items : List Ranobe) (searchTerm : List Char)
    (out : List (Ranobe × Int))
    (h : SortUnstableResult (matchList items searchTerm) out) :
    (∀ i j : Fin out.length, (i : Nat) ≤ (j : Nat) → (out.get j).2 ≤ (out.get i).2) ∧
      ∀ e : Ranobe × Int, e ∈ out ↔ e ∈ matchList items searchTerm := by
  constructor
  · have hch : List.Chain' (fun (a b : Ranobe × Int) => b.2 ≤ a.2) out := h.2
    have hp : out.Pairwise (fun (a b : Ranobe × Int) => b.2 ≤ a.2) :=
      (@List.chain'_iff_pairwise (Ranobe × Int) (fun a b => b.2 ≤ a.2)
        ⟨fun _ _ _ hab hbc => le_trans hbc hab⟩ out).mp hch
    intro i j hij
    rcases Nat.eq_or_lt_of_le hij with heq | hlt
    · have h2 : i = j := Fin.ext heq
      rw [h2]
    · exact List.pairwise_iff_get.mp hp i j hlt
  · intro e
    exact (h.1.mem_iff).symm

/-- Claim C2 witness: the amended theorem applied to the two-candidate
empty-query frame with the reversed (tie-swapped, still conforming)
result list. -/
theorem claim2_witness :
    (⟨"a", "u1"⟩, (0 : Int)) ∈ ([(⟨"b", "u2"⟩, 0), (⟨"a", "u1"⟩, 0)] : List (Ranobe × Int)) ↔
      (⟨"a", "u1"⟩, (0 : Int)) ∈ matchList [⟨"a", "u1"⟩, ⟨"b", "u2"⟩] [] :=
  (claim2_thm [⟨"a", "u1"⟩, ⟨"b", "u2"⟩] [] [(⟨"b", "u2"⟩, 0), (⟨"a", "u1"⟩, 0)]
    (by decide)).2 (⟨"a", "u1"⟩, 0)

/-! ## Claim C5 -/

/-- Claim C5 counterexample: with the empty query all candidates tie at
score 0, so the `sort_unstable_by` contract admits the reversed list as a
frame result; its candidate order differs from the original collection. -/
theorem claim5_counterexample :
    SortUnstableResult (matchList [⟨"c", "u3"⟩, ⟨"d", "u4"⟩] [])
        [(⟨"d", "u4"⟩, 0), (⟨"c", "u3"⟩, 0)] ∧
      ([(⟨"d", "u4"⟩, 0), (⟨"c", "u3"⟩, 0)] : List (Ranobe × Int)).map Prod.fst ≠
        [⟨"c", "u3"⟩, ⟨"d", "u4"⟩] := by
  decide

/-- Claim C5 (amended): with the empty query, the match list is exactly
the original collection in its original order with the uniform score 0,
and every FilteredList the unstable-sort contract admits is a permutation
of it with all scores 0; equality with the original order is exactly as
strong as the stability the unstable sort does not promise. -/
theorem claim5_thm (items : List Ranobe) (out : List (Ranobe × Int))
    (h : SortUnstableResult (matchList items []) out) :
    matchList items [] = items.map (fun it => (it, (0 : Int))) ∧
      out.Perm (items.map (fun it => (it, (0 : Int)))) ∧
      ∀ e ∈ out, e.2 = 0 := by
  refine ⟨matchList_nil items, ?_, ?_⟩
  · have h2 := h.1
    rw [matchList_nil items] at h2
    exact h2.symm
  · intro e he
    have h2 : e ∈ matchList items [] := h.1.mem_iff.mpr he
    rw [matchList_nil] at h2
    rcases List.mem_map.mp h2 with ⟨it, _, rfl⟩
    rfl

/-- Claim C5 witness: the amended theorem applied to a two-candidate
collection with the identity frame result. -/
theorem claim5_witness :
    matchList [⟨"e", "u5"⟩, ⟨"f", "u6"⟩] [] =
      ([⟨"e", "u5"⟩, ⟨"f", "u6"⟩] : List Ranobe).map (fun it => (it, (0 : Int))) :=
  (claim5_thm [⟨"e", "u5"⟩, ⟨"f", "u6"⟩]
    (matchList [⟨"e", "u5"⟩, ⟨"f", "u6"⟩] []) (by decide)).1

/-! ## Claim C8 -/

/-- Claim C8: committing with Enter in Normal mode at a present selection
`Some p` inside a non-empty FilteredList produces the commit exit for
position `p`, and the returned lookup is `Some i` for the unique original
index `i` whose title equals the title of FilteredList entry `p` (unique
labels assumed, FilteredList any list the unstable-sort contract admits). -/
theorem claim8_thm (cfg : Config) (s : WState) (out : List (Ranobe × Int)) (p : Nat)
    (hmode : s.mode = .normal) (hsel : s.sel = some p)
    (hout : SortUnstableResult (matchList cfg.items s.searchTerm) out)
    (hp : p < out.length)
    (huniq : cfg.items.Pairwise (fun a b => a.title ≠ b.title)) :
    stepKey cfg s .enter = .commit p ∧
      ∃ i itm, commitIndex cfg.items (out.get ⟨p, hp⟩).1.title = some i ∧
        cfg.items.get? i = some itm ∧ itm.title = (out.get ⟨p, hp⟩).1.title ∧
        ∀ j jtm, cfg.items.get? j = some jtm →
          jtm.title = (out.get ⟨p, hp⟩).1.title → j = i := by
  constructor
  · have hlen : filteredLen cfg s ≠ 0 := by
      unfold filteredLen
      have h2 := hout.1.length_eq
      omega
    simp [stepKey, stepMatch, hsel, hmode, hlen]
  · have hmem : out.get ⟨p, hp⟩ ∈ matchList cfg.items s.searchTerm :=
      hout.1.mem_iff.mpr (out.get_mem p hp)
    have hfst := matchList_fst_mem _ _ _ hmem
    obtain ⟨i, itm, h1, h2, h3⟩ := commitIndex_found cfg.items _ hfst
    refine ⟨i, itm, h1, h2, h3, ?_⟩
    intro j jtm hj ht
    exact commitIndex_unique cfg.items huniq j i jtm itm hj h2 (ht.trans h3.symm)

/-- Claim C8 witness: Enter in Normal mode at filtered position 1 of a
two-candidate empty-query frame commits position 1. -/
theorem claim8_witness :
    stepKey ⟨[⟨"Ice", "u1"⟩, ⟨"Choc", "u2"⟩], "", none, true, true, true, 5, ""⟩
        ⟨[], 0, some 1, .normal, 0⟩ .enter = .commit 1 :=
  (claim8_thm ⟨[⟨"Ice", "u1"⟩, ⟨"Choc", "u2"⟩], "", none, true, true, true, 5, ""⟩
    ⟨[], 0, some 1, .normal, 0⟩
    (matchList [⟨"Ice", "u1"⟩, ⟨"Choc", "u2"⟩] []) 1 rfl rfl (by decide) (by decide)
    (by decide)).1

/-- An operation sequence ending in `term.show_cursor()` leaves the cursor
visible whenever it succeeds as a whole. -/
theorem showOp_bind_ok (oracle : Nat → Bool) (e : Except TermSt TermSt) (t3 : TermSt)
    (h : (e >>= fun u => opRun oracle u (fun _ => false)) = .ok t3) : t3.hidden = false := by
  cases e with
  | error t => simp [Bind.bind, Except.bind] at h
  | ok u =>
      simp only [Bind.bind, Except.bind] at h
      unfold opRun at h
      split_ifs at h
      injection h with h2
      rw [← h2]

/-- A successful cancel-exit operation sequence shows the cursor. -/
theorem cancelOps_ok (oracle : Nat → Bool) (clear : Bool) (t2 t3 : TermSt)
    (h : cancelOps oracle clear t2 = .ok t3) : t3.hidden = false := by
  unfold cancelOps at h
  exact showOp_bind_ok oracle _ t3 h

/-- A successful commit-exit operation sequence shows the cursor. -/
theorem commitOps_ok (oracle : Nat → Bool) (clear report : Bool) (t2 t3 : TermSt)
    (h : commitOps oracle clear report t2 = .ok t3) : t3.hidden = false := by
  unfold commitOps at h
  exact showOp_bind_ok oracle _ t3 h

/-- Whenever the interaction loop returns `Ok(..)` — commit or cancel —
the cursor ends visible: both return sites sit directly after a successful
`term.show_cursor()?`. -/
theorem runKeys_ok_shown (oracle : Nat → Bool) (cfg : Config)
    (arrange : List (Ranobe × Int) → List (Ranobe × Int)) :
    ∀ (keys : List Key) (s : WState) (t : TermSt) (v : Option Nat),
      (runKeys oracle cfg arrange keys s t).1 = .ok v →
      (runKeys oracle cfg arrange keys s t).2.hidden = false := by
  intro keys
  induction keys with
  | nil =>
      intro s t v h
      cases hio : iterOps oracle t with
      | error t2 =>
          have heq : runKeys oracle cfg arrange [] s t = (.ioErr, t2) := by
            simp [runKeys, hio]
          rw [heq] at h
          simp at h
      | ok t2 =>
          have heq : runKeys oracle cfg arrange [] s t =
              (.ioErr, { t2 with clock := t2.clock + 1 }) := by
            simp [runKeys, hio]
          rw [heq] at h
          simp at h
  | cons k ks ih =>
      intro s t v h
      cases hio : iterOps oracle t >>= fun t1 => opRun oracle t1 id with
      | error t2 =>
          have heq : runKeys oracle cfg arrange (k :: ks) s t = (.ioErr, t2) := by
            simp [runKeys, hio]
          rw [heq] at h
          simp at h
      | ok t2 =>
          cases hsm : stepMatch cfg s k with
          | cancel =>
              cases hc : cancelOps oracle cfg.clear t2 with
              | error t3 =>
                  have heq : runKeys oracle cfg arrange (k :: ks) s t = (.ioErr, t3) := by
                    simp [runKeys, hio, hsm, hc]
                  rw [heq] at h
                  simp at h
              | ok t3 =>
                  have heq : runKeys oracle cfg arrange (k :: ks) s t = (.ok none, t3) := by
                    simp [runKeys, hio, hsm, hc]
                  rw [heq]
                  exact cancelOps_ok oracle cfg.clear t2 t3 hc
          | commit p =>
              cases hc : commitOps oracle cfg.clear cfg.report t2 with
              | error t3 =>
                  have heq : runKeys oracle cfg arrange (k :: ks) s t = (.ioErr, t3) := by
                    simp [runKeys, hio, hsm, hc]
                  rw [heq] at h
                  simp at h
              | ok t3 =>
                  have heq : runKeys oracle cfg arrange (k :: ks) s t =
                      (.ok (commitIndex cfg.items
                        (((arrange (matchList cfg.items s.searchTerm)).getD p
                          ⟨⟨"", ""⟩, 0⟩).1.title)), t3) := by
                    simp [runKeys, hio, hsm, hc]
                  rw [heq]
                  exact commitOps_ok oracle cfg.clear cfg.report t2 t3 hc
          | cont s2 =>
              cases hc : contOps oracle t2 with
              | error t3 =>
                  have heq : runKeys oracle cfg arrange (k :: ks) s t = (.ioErr, t3) := by
                    simp [runKeys, hio, hsm, hc]
                  rw [heq] at h
                  simp at h
              | ok t3 =>
                  have heq : runKeys oracle cfg arrange (k :: ks) s t =
                      runKeys oracle cfg arrange ks (applyUpdate cfg s2) t3 := by
                    simp [runKeys, hio, hsm, hc]
                  rw [heq] at h ⊢
                  exact ih (applyUpdate cfg s2) t3 v h

/-! ## Claim C3 -/

/-- Claim C3 counterexample: there is no guard object or scoped release in
`_interact_on` — every `?` between `term.hide_cursor()?` and the return
propagates immediately.  With an oracle that fails the first operation
after a successful hide (the `render.clear()?` at the loop top), the
function returns the I/O error with the cursor still hidden. -/
theorem claim3_counterexample :
    (interactOn (fun n => n == 0) ⟨[⟨"a", "u"⟩], "", none, true, true, true, 5, ""⟩
        id []).1 = .ioErr ∧
      (interactOn (fun n => n == 0) ⟨[⟨"a", "u"⟩], "", none, true, true, true, 5, ""⟩
        id []).2.hidden = true := by
  decide

/-- Claim C3 (amended): `_interact_on` restores cursor visibility on the
commit and cancel exits — every `Ok(..)` return follows a successful
`term.show_cursor()?` — but an early return caused by a terminal I/O error
anywhere in the loop propagates without showing the cursor again. -/
theorem claim3_thm (oracle : Nat → Bool) (cfg : Config)
    (arrange : List (Ranobe × Int) → List (Ranobe × Int)) (keys : List Key) (v : Option Nat)
    (h : (interactOn oracle cfg arrange keys).1 = .ok v) :
    (interactOn oracle cfg arrange keys).2.hidden = false := by
  cases hop : opRun oracle { hidden := false, clock := 0 } (fun _ => true) with
  | error t1 =>
      have heq : interactOn oracle cfg arrange keys = (.ioErr, t1) := by
        simp [interactOn, hop]
      rw [heq] at h
      simp at h
  | ok t1 =>
      have heq : interactOn oracle cfg arrange keys =
          runKeys oracle cfg arrange keys (initState cfg) t1 := by
        simp [interactOn, hop]
      rw [heq] at h ⊢
      exact runKeys_ok_shown oracle cfg arrange keys (initState cfg) t1 v h

/-- Claim C3 witness: with a fault-free terminal, Escape in Normal mode
returns `Ok(None)` with the cursor visible. -/
theorem claim3_witness :
    (interactOn (fun _ => true) ⟨[⟨"a", "u"⟩], "", none, true, true, true, 5, ""⟩
        id [.escape]).2.hidden = false :=
  claim3_thm (fun _ => true) ⟨[⟨"a", "u"⟩], "", none, true, true, true, 5, ""⟩
    id [.escape] none (by decide)

/-! ## Claim C4 -/

/-- Claim C4 counterexample: the claim asserts that, with a non-empty
FilteredList, applying the same directional move exactly `len` times
returns the selection to its starting value, and itself specifies that a
move maps an absent selection to a present one.  With length 2 and
starting selection `None`, two consecutive `next_item!` moves end at
`Some 0`, not at the starting value `None`. -/
theorem claim4_counterexample :
    iterMove nextItem 2 2 none = some 0 ∧ iterMove nextItem 2 2 none ≠ none := by
  decide

/-- Claim C4 (amended): for a non-empty FilteredList of length `len`,
applying the same directional move (`next_item!` or `prev_item!`) exactly
`len` consecutive times returns a present selection `Some i` (with
`i < len`) to its starting value; a single `next_item!` maps `Some i` to
`Some ((i - 1) mod len)` (written `(i + len - 1) % len`) and `None` to
`Some (len - 1)`, and a single `prev_item!` maps `Some i` to
`Some ((i + 1) mod len)` and `None` to `Some 0`.  Starting from `None`,
`len` applications end at `Some 0` for `next_item!` and at `Some (len - 1)`
for `prev_item!`, not back at `None`. -/
theorem claim4_thm (len i : Nat) (hlen : 0 < len) (hi : i < len) :
    iterMove nextItem len len (some i) = some i ∧
    iterMove prevItem len len (some i) = some i ∧
    nextItem (some i) len = some ((i + len - 1) % len) ∧
    prevItem (some i) len = some ((i + 1) % len) ∧
    nextItem none len = some (len - 1) ∧
    prevItem none len = some 0 ∧
    iterMove nextItem len len none = some 0 ∧
    iterMove prevItem len len none = some (len - 1) := by
  refine ⟨?_, ?_, nextItem_some i len hlen, rfl, rfl, rfl, ?_, ?_⟩
  · rw [iterMove_next_formula len hlen len i hi]
    congr 1
    rw [Nat.mul_comm, Nat.add_mul_mod_self_right]
    exact Nat.mod_eq_of_lt hi
  · rw [iterMove_prev_formula len hlen len i hi]
    congr 1
    rw [Nat.add_mod_right]
    exact Nat.mod_eq_of_lt hi
  · cases len with
    | zero => exact absurd hlen (by omega)
    | succ m =>
        simp only [iterMove, nextItem, Nat.add_sub_cancel]
        rw [iterMove_next_formula (m + 1) (by omega) m m (by omega)]
        congr 1
        have h2 : m + m * (m + 1 - 1) = m * (m + 1) := by
          simp only [Nat.add_sub_cancel]
          rw [Nat.mul_succ]
          omega
        rw [h2, Nat.mul_mod_left]
  · cases len with
    | zero => exact absurd hlen (by omega)
    | succ m =>
        simp only [iterMove, prevItem, Nat.add_sub_cancel]
        rw [iterMove_prev_formula (m + 1) (by omega) m 0 (by omega)]
        congr 1
        rw [Nat.zero_add]
        exact Nat.mod_eq_of_lt (by omega)

/-- Claim C4 witness: the amended theorem applied at length 3 and starting
selection `Some 1`. -/
theorem claim4_witness :
    iterMove nextItem 3 3 (some 1) = some 1 ∧
    iterMove prevItem 3 3 (some 1) = some 1 ∧
    nextItem (some 1) 3 = some ((1 + 3 - 1) % 3) ∧
    prevItem (some 1) 3 = some ((1 + 1) % 3) ∧
    nextItem none 3 = some (3 - 1) ∧
    prevItem none 3 = some 0 ∧
    iterMove nextItem 3 3 none = some 0 ∧
    iterMove prevItem 3 3 none = some (3 - 1) :=
  claim4_thm 3 1 (by decide) (by decide)

/-! ## Claim C6 -/

/-- Claim C6 counterexample: `size_vec` (`select.rs` lines 147-151) holds
the title length of every candidate, not only of the currently rendered
page, and `clear_preserve_prompt` adds wrap rows for each of its overlong
entries.  With a 20-byte and a 5-byte title, terminal width 10, and the
page window `skip 1, take 1` rendering only the 5-byte item (one body
row), the code erases 3 rows while the claim's visible-page sum is 1 row:
the erase is not exactly the previous frame's rows. -/
theorem claim6_counterexample :
    clearPreserveHeight
        (((sizeVec [⟨"aaaaaaaaaaaaaaaaaaaa", "u"⟩, ⟨"bbbbb", "v"⟩]).drop 1).take 1).length
        (sizeVec [⟨"aaaaaaaaaaaaaaaaaaaa", "u"⟩, ⟨"bbbbb", "v"⟩]) 10 ≠
      claimedEraseHeight
        (((sizeVec [⟨"aaaaaaaaaaaaaaaaaaaa", "u"⟩, ⟨"bbbbb", "v"⟩]).drop 1).take 1) 10 := by
  decide

/-- Claim C6 (amended): `clear_preserve_prompt` adds
`ceil((size + marker) / width) - 1` extra rows for every overlong entry of
the whole candidate collection's `size_vec` (marker width 2), not only for
the visible page.  When the rendered page is the entire collection (one
body row counted per item), the erased body height equals exactly the
claimed per-item sum: `ceil((size + 2) / width)` rows for each overlong
item and one row for every other item. -/
theorem claim6_thm (sizes : List Nat) (width : Nat) (hw : 0 < width) :
    clearPreserveHeight sizes.length sizes width = claimedEraseHeight sizes width := by
  induction sizes with
  | nil => simp [clearPreserveHeight, claimedEraseHeight]
  | cons a rest ih =>
      simp only [clearPreserveHeight, claimedEraseHeight, List.map_cons, List.sum_cons,
        List.length_cons] at ih ⊢
      by_cases h : width < a
      · have h1 : 1 ≤ ceilDiv (a + 2) width := by
          unfold ceilDiv
          rw [Nat.one_le_div_iff hw]
          omega
        simp only [if_pos h]
        omega
      · simp only [if_neg h]
        omega

/-- Claim C6 witness: the amended theorem applied to sizes `[20, 5]` at
terminal width 10 (both items rendered: 3 + 1 rows erased). -/
theorem claim6_witness :
    clearPreserveHeight ([20, 5] : List Nat).length [20, 5] 10 =
      claimedEraseHeight [20, 5] 10 :=
  claim6_thm [20, 5] 10 (by decide)

/-! ## Claim C7 -/

/-- Claim C7 counterexample: the `(Key::Enter, Some(sel))` pattern of
`select.rs` line 270 requires a present selection, so in Editing mode with
`sel = None` the Enter key falls through to the catch-all arm: the widget
stays in Editing mode instead of returning to Normal. -/
theorem claim7_counterexample :
    stepKey ⟨[⟨"a", "u"⟩], "", none, true, true, true, 5, ""⟩
        ⟨[], 0, none, .editing, 0⟩ .enter =
      .cont ⟨[], 0, none, .editing, 0⟩ ∧
      (⟨[], 0, none, .editing, 0⟩ : WState).mode = .editing := by
  decide

/-- Claim C7 (amended): in Editing mode, Enter returns the controller to
Normal mode and continues the loop when the selection is present; when the
selection is absent, Enter is a no-op that continues the loop still in
Editing mode. -/
theorem claim7_thm (cfg : Config) (s : WState) (h : s.mode = .editing) :
    (∀ p, s.sel = some p →
        stepKey cfg s .enter = .cont (applyUpdate cfg { s with mode := .normal })) ∧
      (s.sel = none → stepKey cfg s .enter = .cont (applyUpdate cfg s)) := by
  constructor
  · intro p hp
    simp [stepKey, stepMatch, hp, h]
  · intro hp
    simp [stepKey, stepMatch, hp, h]

/-- Claim C7 witness: the amended theorem applied in Editing mode with a
present selection. -/
theorem claim7_witness :
    stepKey ⟨[⟨"a", "u"⟩], "", none, true, true, true, 5, ""⟩
        ⟨[], 0, some 0, .editing, 0⟩ .enter =
      .cont (applyUpdate ⟨[⟨"a", "u"⟩], "", none, true, true, true, 5, ""⟩
        { (⟨[], 0, some 0, .editing, 0⟩ : WState) with mode := .normal }) :=
  (claim7_thm ⟨[⟨"a", "u"⟩], "", none, true, true, true, 5, ""⟩
    ⟨[], 0, some 0, .editing, 0⟩ rfl).1 0 rfl

/-! ## Claim C10 -/

/-- On all-single-byte text, byte length and character count coincide. -/
theorem byteLen_allAscii (l : List Char) (h : ∀ c ∈ l, charBytes c = 1) :
    byteLen l = l.length := by
  induction l with
  | nil => rfl
  | cons x xs ih =>
      simp only [byteLen, List.map_cons, List.sum_cons, List.length_cons]
      rw [h x (List.mem_cons_self x xs)]
      have ih2 := ih (fun c hc => h c (List.mem_cons_of_mem _ hc))
      simp only [byteLen] at ih2
      omega

/-- On all-single-byte text, every in-range byte offset is a character
boundary. -/
theorem boundary_of_ascii (l : List Char) (h : ∀ c ∈ l, charBytes c = 1) :
    ∀ pos, pos ≤ l.length → isCharBoundary l pos = true := by
  induction l with
  | nil =>
      intro pos hpos
      have h0 : pos = 0 := by simpa using hpos
      subst h0
      rfl
  | cons x xs ih =>
      intro pos hpos
      cases pos with
      | zero => rfl
      | succ p =>
          have hx : charBytes x = 1 := h x (List.mem_cons_self x xs)
          simp only [isCharBoundary, hx]
          rw [if_neg (by omega)]
          exact ih (fun c hc => h c (List.mem_cons_of_mem _ hc)) p (by simpa using hpos)

/-- Inserting a single-byte character at an in-range byte offset of
all-single-byte text succeeds (no panic) and keeps the text
all-single-byte. -/
theorem insertAtByte_ascii (c : Char) (hc : charBytes c = 1) :
    ∀ (l : List Char) (pos : Nat), (∀ d ∈ l, charBytes d = 1) → pos ≤ l.length →
      ∃ l2, insertAtByte l pos c = some l2 ∧ (∀ d ∈ l2, charBytes d = 1) ∧
        l2.length = l.length + 1 := by
  intro l
  induction l with
  | nil =>
      intro pos _ hpos
      have h0 : pos = 0 := by simpa using hpos
      subst h0
      exact ⟨[c], rfl, by simpa using hc, rfl⟩
  | cons x xs ih =>
      intro pos hall hpos
      cases pos with
      | zero =>
          exact ⟨c :: x :: xs, rfl, by
            intro d hd
            rcases List.mem_cons.mp hd with rfl | hd2
            · exact hc
            · exact hall d hd2, by simp⟩
      | succ p =>
          have hx : charBytes x = 1 := hall x (List.mem_cons_self x xs)
          obtain ⟨l2, h1, h2, h3⟩ :=
            ih p (fun d hd => hall d (List.mem_cons_of_mem _ hd)) (by
              simp only [List.length_cons] at hpos
              omega)
          refine ⟨x :: l2, ?_, ?_, by simp [h3]⟩
          · simp only [insertAtByte, hx]
            rw [if_neg (by omega)]
            have hp : p + 1 - 1 = p := by omega
            rw [hp, h1]
            rfl
          · intro d hd
            rcases List.mem_cons.mp hd with rfl | hd2
            · exact hx
            · exact h2 d hd2

/-- Removing the character at an in-range byte offset of all-single-byte
text succeeds (no panic) and keeps the text all-single-byte. -/
theorem removeAtByte_ascii :
    ∀ (l : List Char) (pos : Nat), (∀ d ∈ l, charBytes d = 1) → pos < l.length →
      ∃ l2, removeAtByte l pos = some l2 ∧ (∀ d ∈ l2, charBytes d = 1) ∧
        l2.length = l.length - 1 := by
  intro l
  induction l with
  | nil =>
      intro pos _ hpos
      simp at hpos
  | cons x xs ih =>
      intro pos hall hpos
      cases pos with
      | zero =>
          exact ⟨xs, rfl, fun d hd => hall d (List.mem_cons_of_mem _ hd), by simp⟩
      | succ p =>
          have hx : charBytes x = 1 := hall x (List.mem_cons_self x xs)
          obtain ⟨l2, h1, h2, h3⟩ :=
            ih p (fun d hd => hall d (List.mem_cons_of_mem _ hd)) (by
              simp only [List.length_cons] at hpos
              omega)
          refine ⟨x :: l2, ?_, ?_, ?_⟩
          · simp only [removeAtByte, hx]
            rw [if_neg (by omega)]
            have hp : p + 1 - 1 = p := by omega
            rw [hp, h1]
            rfl
          · intro d hd
            rcases List.mem_cons.mp hd with rfl | hd2
            · exact hx
            · exact h2 d hd2
          · simp only [List.length_cons, h3]
            simp only [List.length_cons] at hpos
            omega

/-- One Editing-mode text key preserves the editing invariant and never
panics, for Backspace and printable ASCII characters. -/
theorem editStep_inv (s : EditSt) (k : EditKey) (hinv : EInv s)
    (hk : printableAsciiKey k = true) :
    ∃ s2, editStep s k = some s2 ∧ EInv s2 := by
  cases k with
  | backspace =>
      by_cases hpos : s.position > 0
      · obtain ⟨l2, h1, h2, h3⟩ :=
          removeAtByte_ascii s.searchTerm (s.position - 1) hinv.1 (by
            have h4 := hinv.2
            omega)
        refine ⟨⟨l2, s.position - 1⟩, ?_, h2, ?_⟩
        · simp [editStep, hpos, h1]
        · have h4 := hinv.2
          simp only [h3]
          omega
      · exact ⟨s, by simp [editStep, hpos], hinv⟩
  | char c =>
      simp only [printableAsciiKey, Bool.and_eq_true, decide_eq_true_eq] at hk
      have hc1 : charBytes c = 1 := by
        unfold charBytes
        rw [if_pos (by omega)]
      have hctrl : isAsciiControl c = false := by
        unfold isAsciiControl
        rw [Bool.or_eq_false_iff]
        exact ⟨decide_eq_false (by omega), beq_eq_false_iff_ne.mpr (by omega)⟩
      obtain ⟨l2, h1, h2, h3⟩ :=
        insertAtByte_ascii c hc1 s.searchTerm s.position hinv.1 hinv.2
      refine ⟨⟨l2, s.position + 1⟩, ?_, h2, ?_⟩
      · simp [editStep, hctrl, h1]
      · have h4 := hinv.2
        simp only [h3]
        omega

/-- Feeding any sequence of Backspace and printable ASCII keys from an
invariant-satisfying state panics nowhere and keeps the invariant at
every visited state. -/
theorem editTrace_inv :
    ∀ (keys : List EditKey) (s : EditSt), EInv s →
      (∀ k ∈ keys, printableAsciiKey k = true) →
      ∃ tr, editTrace s keys = some tr ∧ ∀ u ∈ tr, EInv u := by
  intro keys
  induction keys with
  | nil =>
      intro s hs _
      refine ⟨[s], rfl, ?_⟩
      intro u hu
      simp only [List.mem_singleton] at hu
      subst hu
      exact hs
  | cons k ks ih =>
      intro s hs hk
      obtain ⟨s2, h1, h2⟩ := editStep_inv s k hs (hk k (List.mem_cons_self k ks))
      obtain ⟨tr2, h3, h4⟩ := ih s2 h2 (fun k2 hk2 => hk k2 (List.mem_cons_of_mem _ hk2))
      refine ⟨s :: tr2, ?_, ?_⟩
      · simp [editTrace, h1, h3]
      · intro u hu
        rcases List.mem_cons.mp hu with rfl | hu2
        · exact hs
        · exact h4 u hu2

/-- Claim C10: starting from a single-byte query text with the cursor at
its byte length (as `_interact_on` initialises it), any Editing-mode key
sequence of printable ASCII characters and Backspace keeps the cursor
within the buffer's byte length and on a character boundary at every
state, and none of `String::insert`, `String::remove`, or the theme's
`search_term[0..cursor_pos]` slice panics. -/
theorem claim10_thm (s0 : EditSt) (keys : List EditKey)
    (h1 : ∀ c ∈ s0.searchTerm, charBytes c = 1)
    (h2 : s0.position = byteLen s0.searchTerm)
    (hk : ∀ k ∈ keys, printableAsciiKey k = true) :
    editTraceOk s0 keys = true := by
  have h0 : EInv s0 := by
    refine ⟨h1, ?_⟩
    rw [h2, byteLen_allAscii _ h1]
  obtain ⟨tr, htr, hall⟩ := editTrace_inv keys s0 h0 hk
  unfold editTraceOk
  rw [htr, List.all_eq_true]
  intro u hu
  have hinv := hall u hu
  have hblen := byteLen_allAscii _ hinv.1
  rw [Bool.and_eq_true]
  constructor
  · rw [decide_eq_true_eq, hblen]
    exact hinv.2
  · exact boundary_of_ascii _ hinv.1 _ hinv.2

/-- Claim C10 witness: the theorem applied to the buffer `"ab"` (cursor at
byte 2) under a sequence of insertions and backspaces, including
backspaces beyond the buffer start. -/
theorem claim10_witness :
    editTraceOk ⟨['a', 'b'], 2⟩
      [.char 'c', .char ' ', .backspace, .backspace, .backspace, .backspace, .char 'z'] =
      true :=
  claim10_thm ⟨['a', 'b'], 2⟩
    [.char 'c', .char ' ', .backspace, .backspace, .backspace, .backspace, .char 'z']
    (by decide) (by decide) (by decide)

/-! ## Claim C9 -/

/-- Claim C9 counterexample: the claim asserts that a `q` keypress in
Normal mode leaves the page (among the rest of the state) unchanged for
every Normal-mode widget state.  At the first loop iteration of a builder
configuration with `default(5)`, three candidates and capacity 2 — a
reachable Normal-mode state with page 0 — the unconditional
`paging.update` of the loop tail recomputes the page to `5 / 2 = 2`, so
the state does change. -/
theorem claim9_counterexample :
    stepKey ⟨[⟨"a", "u"⟩, ⟨"b", "v"⟩, ⟨"c", "w"⟩], "", some 5, true, true, true, 2, ""⟩
        (initState ⟨[⟨"a", "u"⟩, ⟨"b", "v"⟩, ⟨"c", "w"⟩], "", some 5, true, true, true, 2, ""⟩)
        (.char 'q') ≠
      .cont (initState ⟨[⟨"a", "u"⟩, ⟨"b", "v"⟩, ⟨"c", "w"⟩], "", some 5, true, true, true, 2, ""⟩) := by
  decide

/-- Claim C9 (amended): no arm of the key `match` handles `q` in Normal
mode (despite the doc comment of `interact`, `select.rs` line 125,
claiming `q` cancels), so a `q` keypress falls to the catch-all arm and
leaves the query, cursor position, selection, mode and page unchanged —
the page because the loop tail's `paging.update` recomputes it from the
unchanged selection, which is a fixed point whenever the page already
equals `selection / capacity` (true at every state the loop tail has
passed through); and the interaction returns `Ok(None)` only for Escape in
Normal mode, no other key and mode produce the cancel exit. -/
theorem claim9_thm (cfg : Config) (s : WState)
    (hmode : s.mode = .normal)
    (hpage : s.page = pagingUpdate cfg.capacity (s.sel.getD 0)) :
    stepKey cfg s (.char 'q') = .cont s ∧
      ∀ (s0 : WState) (k : Key), stepKey cfg s0 k = .cancel →
        k = .escape ∧ s0.mode = .normal := by
  constructor
  · have h1 : stepMatch cfg s (.char 'q') = .cont s := by
      simp only [stepMatch]
      split_ifs with h1 h2 h3 h4 h5 h6
      · exact absurd h1.1 (by decide)
      · exact absurd h2.1 (by decide)
      · exact absurd h3.1 (by decide)
      · exact absurd h4.1 (by decide)
      · exact absurd h5.1 (by decide)
      · rw [hmode] at h6
        exact absurd h6.1 (by decide)
      · rfl
    unfold stepKey
    rw [h1]
    show StepOut.cont { s with page := pagingUpdate cfg.capacity (s.sel.getD 0) } =
      StepOut.cont s
    rw [← hpage]
  · intro s0 k hk
    exact stepMatch_cancel_only cfg s0 k ((stepKey_cancel_iff cfg s0 k).mp hk)

/-- Claim C9 witness: the amended theorem applied at the initial state of
a one-candidate configuration (page 0, no default selection). -/
theorem claim9_witness :
    stepKey ⟨[⟨"a", "u"⟩], "", none, true, true, true, 5, ""⟩
        (initState ⟨[⟨"a", "u"⟩], "", none, true, true, true, 5, ""⟩) (.char 'q') =
      .cont (initState ⟨[⟨"a", "u"⟩], "", none, true, true, true, 5, ""⟩) :=
  (claim9_thm ⟨[⟨"a", "u"⟩], "", none, true, true, true, 5, ""⟩
    (initState ⟨[⟨"a", "u"⟩], "", none, true, true, true, 5, ""⟩) rfl rfl).1

end Select
